import Mathlib

/-!
Verification development for the CocoIndex-style code indexing service
(`server/python-service`): chunking (`chunking.py`), repository scanning,
indexing and search (`cocoindex_flow.py`), configuration (`config.py`) and
the `/reindex` HTTP handler (`app.py`).

Machine strings are modelled by Lean `String`; the handful of Python string
primitives the code uses (`str.split('\n')`, `'\n'.join`, `str.lower()`,
`str.replace`, the `in` substring test, `os.path.splitext`) are embedded as
executable char-list functions below so every definition evaluates inside
the kernel.
-/

/-- Models Python `str.split(sep)` for a single-character separator:
splitting `[]` yields `[[]]`, and each occurrence of the separator starts a
new (possibly empty) segment. -/
def split_on_char (sep : Char) : List Char → List (List Char)
  | [] => [[]]
  | x :: xs =>
    if x = sep then [] :: split_on_char sep xs
    else
      match split_on_char sep xs with
      | [] => [[x]]
      | l :: ls => (x :: l) :: ls

/-- Python `content.split('\n')` on a Lean `String`. -/
def split_lines (content : String) : List String :=
  (split_on_char '\n' content.data).map String.mk

/-- Python `'\n'.join(lines)`. -/
def join_newline (ls : List String) : String :=
  String.mk (List.intercalate ['\n'] (ls.map String.data))

/-- Python `str.lower()` (per-character lowering, as used on ASCII
extensions). -/
def lower_str (s : String) : String :=
  String.mk (s.data.map Char.toLower)

/-- Models Python `os.path.splitext(p)[1]`: the extension of the final path
component, taken from its last dot, with the component's leading dots not
counting as extension separators (`splitext('.bashrc') = ('.bashrc', '')`). -/
def splitext_ext (p : String) : String :=
  let base := ((split_on_char '/' p.data).map String.mk).getLastD ""
  let stripped := String.mk (base.data.dropWhile (fun c => c = '.'))
  let parts := (split_on_char '.' stripped.data).map String.mk
  if parts.length ≤ 1 then "" else "." ++ parts.getLastD ""

/-- `chunking.get_language_from_extension`: maps a file extension to a
language identifier, `"unknown"` if unmapped. -/
def get_language_from_extension (filename : String) : String :=
  let ext := lower_str (splitext_ext filename)
  if ext = ".js" then "javascript"
  else if ext = ".jsx" then "javascript"
  else if ext = ".ts" then "typescript"
  else if ext = ".tsx" then "typescript"
  else if ext = ".py" then "python"
  else if ext = ".java" then "java"
  else if ext = ".kt" then "kotlin"
  else if ext = ".swift" then "swift"
  else if ext = ".go" then "go"
  else if ext = ".rs" then "rust"
  else if ext = ".rb" then "ruby"
  else if ext = ".php" then "php"
  else if ext = ".c" then "c"
  else if ext = ".cpp" then "cpp"
  else if ext = ".h" then "c"
  else if ext = ".hpp" then "cpp"
  else if ext = ".cs" then "csharp"
  else if ext = ".scala" then "scala"
  else if ext = ".clj" then "clojure"
  else "unknown"

/-- The `metadata` dict attached to a chunk. A whole-file chunk carries only
`total_lines` and `is_truncated`; sliding-window chunks additionally carry
`chunk_number` and `total_chunks` (the latter initially `-1`, overwritten
with the final count), hence the `Option` fields. -/
structure ChunkMeta where
  total_lines : Nat
  is_truncated : Bool
  chunk_number : Option Nat
  total_chunks : Option Int
  deriving Repr, DecidableEq

/-- One chunk dictionary as produced by `chunking.chunk_code`. -/
structure Chunk where
  file_path : String
  chunk_text : String
  chunk_type : String
  start_line : Nat
  end_line : Nat
  language : String
  metadata : ChunkMeta
  deriving Repr, DecidableEq

/-- The chunk built by one iteration of the sliding-window loop of
`chunk_code` at 0-based offset `start_line` with running index `chunk_num`. -/
def chunk_window (file_path language : String) (lines : List String)
    (total_lines max_chunk_size : Nat) (start_line chunk_num : Nat) : Chunk :=
  let end_line := min (start_line + max_chunk_size) total_lines
  { file_path := file_path
    chunk_text := join_newline ((lines.drop start_line).take (end_line - start_line))
    chunk_type := "chunk_" ++ toString chunk_num
    start_line := start_line + 1
    end_line := end_line
    language := language
    metadata :=
      { total_lines := total_lines
        is_truncated := decide (end_line < total_lines)
        chunk_number := some chunk_num
        total_chunks := some (-1) } }

/-- The `while start_line < total_lines` loop of `chunk_code` (lines 85–111
of `chunking.py`). The Python loop diverges when it makes no forward
progress (`chunk_overlap ≥ max_chunk_size`), so the embedding carries a fuel
parameter and returns `none` exactly when the source loop would never
return. -/
def chunk_loop (file_path language : String) (lines : List String)
    (total_lines max_chunk_size chunk_overlap : Nat) :
    Nat → Nat → Nat → Option (List Chunk)
  | 0, _, _ => none
  | fuel + 1, start_line, chunk_num =>
    if start_line < total_lines then
      let end_line := min (start_line + max_chunk_size) total_lines
      let c := chunk_window file_path language lines total_lines max_chunk_size start_line chunk_num
      if total_lines ≤ end_line then some [c]
      else
        match chunk_loop file_path language lines total_lines max_chunk_size chunk_overlap
            fuel (end_line - chunk_overlap) (chunk_num + 1) with
        | none => none
        | some rest => some (c :: rest)
    else some []

/-- The metadata rewrite performed by the final
`for chunk in chunks: chunk['metadata']['total_chunks'] = len(chunks)` loop. -/
def fill_total_chunks (n : Nat) (c : Chunk) : Chunk :=
  { c with metadata := { c.metadata with total_chunks := some (n : Int) } }

/-- `chunking.chunk_code`: whole-file chunk for small files, sliding-window
chunks with overlap otherwise. Returns `none` when the Python loop would
diverge (no forward progress); the fuel `total_lines + 1` is ample because
every terminating run advances the window start by at least one line per
emitted chunk. -/
def chunk_code (file_path content : String) (max_chunk_size chunk_overlap : Nat) :
    Option (List Chunk) :=
  let lines := split_lines content
  let total_lines := lines.length
  let language := get_language_from_extension file_path
  if total_lines ≤ max_chunk_size then
    some [{ file_path := file_path
            chunk_text := content
            chunk_type := "whole_file"
            start_line := 1
            end_line := total_lines
            language := language
            metadata :=
              { total_lines := total_lines
                is_truncated := false
                chunk_number := none
                total_chunks := none } }]
  else
    match chunk_loop file_path language lines total_lines max_chunk_size chunk_overlap
        (total_lines + 1) 0 0 with
    | none => none
    | some cs => some (cs.map (fill_total_chunks cs.length))

/-- `chunking.try_tree_sitter_parse`: a placeholder that always returns
`None` (falls back to the sliding window). -/
def try_tree_sitter_parse (_file_path _content _language : String) : Option (List Chunk) :=
  none

/-- `chunking.smart_chunk`: tries tree-sitter when enabled (the placeholder
always yields `None`, and Python's truthiness also rejects an empty list),
otherwise falls back to `chunk_code`. -/
def smart_chunk (file_path content : String) (max_chunk_size chunk_overlap : Nat)
    (use_tree_sitter : Bool) : Option (List Chunk) :=
  let language := get_language_from_extension file_path
  match (if use_tree_sitter then try_tree_sitter_parse file_path content language else none) with
  | some tree_chunks =>
    if tree_chunks.isEmpty then chunk_code file_path content max_chunk_size chunk_overlap
    else some tree_chunks
  | none => chunk_code file_path content max_chunk_size chunk_overlap

/-- Models Python list/str prefix test: `h` starts with `n`. -/
def starts_with : List Char → List Char → Bool
  | [], _ => true
  | _ :: _, [] => false
  | a :: n, b :: h => a = b && starts_with n h

/-- Models the Python `in` operator on strings: `n` occurs as a contiguous
substring of `h`. -/
def contains_sub (n : List Char) : List Char → Bool
  | [] => starts_with n []
  | c :: h => starts_with n (c :: h) || contains_sub n h

/-- One pass of Python `str.replace(pat, rep)`: leftmost, non-overlapping,
replacing every occurrence. The fuel equals the scanned length, which is
ample since each step consumes at least one character (the empty-pattern
case, which Python treats specially, never occurs in this code base and is
mapped to the identity). -/
def replace_aux (pat rep : List Char) : Nat → List Char → List Char
  | 0, l => l
  | fuel + 1, l =>
    match l with
    | [] => []
    | c :: rest =>
      if !pat.isEmpty && starts_with pat l then rep ++ replace_aux pat rep fuel (l.drop pat.length)
      else c :: replace_aux pat rep fuel rest

/-- Python `s.replace(pat, rep)` on Lean strings. -/
def str_replace (s pat rep : String) : String :=
  String.mk (replace_aux pat.data rep.data s.data.length s.data)

/-- Python `n in h` on Lean strings. -/
def substring_in (n h : String) : Bool :=
  contains_sub n.data h.data

/-- `config.MAX_CHUNK_SIZE` default (lines). -/
def MAX_CHUNK_SIZE : Nat := 500

/-- `config.CHUNK_OVERLAP` default (lines). -/
def CHUNK_OVERLAP : Nat := 100

/-- `config.INDEXABLE_EXTENSIONS`. -/
def INDEXABLE_EXTENSIONS : List String :=
  [".js", ".jsx", ".ts", ".tsx",
   ".py", ".swift", ".kt", ".java",
   ".go", ".rs", ".rb", ".php",
   ".c", ".cpp", ".h", ".hpp",
   ".cs", ".scala", ".clj",
   ".vue", ".svelte"]

/-- `config.SKIP_PATTERNS`. -/
def SKIP_PATTERNS : List String :=
  ["**/node_modules/**",
   "**/dist/**",
   "**/build/**",
   "**/*.min.js",
   "**/*.lock",
   "**/vendor/**",
   "**/.git/**",
   "**/target/**",
   "**/__pycache__/**",
   "**/venv/**",
   "**/coverage/**",
   "**/.next/**",
   "**/.cache/**"]

/-- The cleaning step of `CocoIndexFlow._should_skip`:
`pattern.replace('**/', '').replace('/**', '')`. -/
def pattern_clean (p : String) : String :=
  str_replace (str_replace p "**/" "") "/**" ""

/-- `CocoIndexFlow._should_skip` applied to a path already relative to the
repository root (the source computes `os.path.relpath(path, repo_path)`
first; the embedding carries relative paths throughout the walk). -/
def should_skip (rel_path : String) : Bool :=
  SKIP_PATTERNS.any (fun p => substring_in (pattern_clean p) rel_path)

/-- `CocoIndexFlow._should_index`: allow-listed extension only. -/
def should_index (file_path : String) : Bool :=
  INDEXABLE_EXTENSIONS.contains (lower_str (splitext_ext file_path))

/-- A directory tree as `os.walk` traverses it: named files and named
subdirectories (in listing order). -/
inductive FSTree where
  | file (name : String)
  | dir (name : String) (entries : List FSTree)
  deriving Repr

/-- `os.path.join` below the repository root, on repo-relative paths. -/
def rel_join (relDir name : String) : String :=
  if relDir = "" then name else relDir ++ "/" ++ name

/-- The per-directory file pass of `CocoIndexFlow._collect_files`: files of
one directory that pass `_should_index`; `_should_skip` is never consulted
here. -/
def dir_files (relDir : String) (entries : List FSTree) : List String :=
  entries.filterMap (fun e => match e with
    | FSTree.file n => if should_index (rel_join relDir n) then some (rel_join relDir n) else none
    | FSTree.dir _ _ => none)

/-- The recursive descent of `os.walk` as driven by `_collect_files`:
a subdirectory is pruned when `_should_skip` matches its repo-relative
path; a kept subdirectory contributes its own indexable files and then its
descendants'. -/
def walk_tree (relDir : String) : FSTree → List String
  | FSTree.file _ => []
  | FSTree.dir n sub =>
    if should_skip (rel_join relDir n) then []
    else dir_files (rel_join relDir n) sub ++ walk_list (rel_join relDir n) sub
where walk_list (relDir : String) : List FSTree → List String
  | [] => []
  | e :: es => walk_tree relDir e ++ walk_list relDir es

/-- `CocoIndexFlow._collect_files` on the repository's tree (paths returned
relative to the repository root; the source returns the same paths prefixed
with the absolute root). -/
def collect_files (root : List FSTree) : List String :=
  dir_files "" root ++ walk_tree.walk_list "" root

/-- Size measure on directory trees, used to drive induction over the
scanner's recursion. -/
def fs_size : FSTree → Nat
  | FSTree.file _ => 1
  | FSTree.dir _ entries => 1 + fs_list_size entries
where fs_list_size : List FSTree → Nat
  | [] => 0
  | e :: es => fs_size e + fs_list_size es

/-- A row of the `code_chunks` table as written by `CocoIndexFlow._index_file`
(the `embedding` vector and the `indexed_at` DB-side timestamp are external
to the model; `file_mtime` is an opaque timestamp). -/
structure StoredChunk where
  repo_path : String
  file_path : String
  chunk_text : String
  chunk_type : String
  start_line : Nat
  end_line : Nat
  language : String
  metadata : ChunkMeta
  file_mtime : Int
  deriving Repr, DecidableEq

/-- The `code_chunks` table: insertion-ordered rows. -/
abbrev Store := List StoredChunk

/-- `CocoIndexFlow._clear_repo_index`:
`DELETE FROM code_chunks WHERE repo_path = %s`. -/
def clear_repo_index (st : Store) (repo_path : String) : Store :=
  st.filter (fun r => r.repo_path != repo_path)

/-- The rows of one repository (`WHERE repo_path = %s`). -/
def rows_for (repo_path : String) (st : Store) : Store :=
  st.filter (fun r => r.repo_path == repo_path)

/-- The environment one `index_repository` call runs against:
`path_exists` models `os.path.exists(repo_path)`; `tree` is the directory
tree `os.walk` traverses; `read_file` yields a file's text by repo-relative
path (`none` models a read/decode failure); `mtime` models
`os.path.getmtime`; `embed_ok` tells whether the per-file embedding and
storage calls succeed (`false` models an exception raised by the external
model or database). -/
structure FileSystem where
  path_exists : Bool
  tree : List FSTree
  read_file : String → Option String
  mtime : String → Int
  embed_ok : String → Bool

/-- The row built from one chunk dict by the `INSERT INTO code_chunks`
statement of `_index_file`. -/
def stored_of (repo_path rel_file_path : String) (mtime : Int) (c : Chunk) : StoredChunk :=
  { repo_path := repo_path
    file_path := rel_file_path
    chunk_text := c.chunk_text
    chunk_type := c.chunk_type
    start_line := c.start_line
    end_line := c.end_line
    language := c.language
    metadata := c.metadata
    file_mtime := mtime }

/-- `CocoIndexFlow._index_file` on a repo-relative candidate path.
`Except Unit` models a raised exception (embedding/storage failure, or the
chunker diverging — impossible with the configured `100 < 500`), which the
caller's per-file `try/except` catches; a read failure instead returns
zero chunks without raising, exactly as in the source. -/
def index_file (fs : FileSystem) (repo_path file_path : String) (st : Store) :
    Except Unit (Store × Nat) :=
  match fs.read_file file_path with
  | none => .ok (st, 0)
  | some content =>
    match smart_chunk file_path content MAX_CHUNK_SIZE CHUNK_OVERLAP false with
    | none => .error ()
    | some chunks =>
      if chunks.isEmpty then .ok (st, 0)
      else if fs.embed_ok file_path then
        .ok (st ++ chunks.map (stored_of repo_path file_path (fs.mtime file_path)), chunks.length)
      else .error ()

/-- Aggregate statistics returned by `index_repository`. -/
structure IndexStats where
  repo_path : String
  files_indexed : Nat
  chunks_created : Nat
  files_found : Nat
  deriving Repr, DecidableEq

/-- The one fatal error of `index_repository`: the `ValueError` raised when
`repo_path` does not exist. -/
inductive IndexError where
  | pathNotFound
  deriving Repr, DecidableEq

deriving instance DecidableEq for Except

/-- Result of an `index_repository` call together with the table state it
leaves behind. -/
structure IndexOutcome where
  result : Except IndexError IndexStats
  store : Store
  deriving Repr, DecidableEq

/-- The body of the `for file_path in files_to_index` loop of
`index_repository`: a per-file exception is logged and skipped, a file
counts as indexed only when it contributed at least one chunk. -/
def index_step (fs : FileSystem) (repo_path : String) (acc : Store × Nat × Nat) (f : String) :
    Store × Nat × Nat :=
  match index_file fs repo_path f acc.1 with
  | .ok (st', n) => if 0 < n then (st', acc.2.1 + 1, acc.2.2 + n) else (st', acc.2.1, acc.2.2)
  | .error _ => acc

/-- `CocoIndexFlow.index_repository`: existence check, optional force
delete, scan, then the sequential per-file loop. -/
def index_repository (fs : FileSystem) (st : Store) (repo_path : String) (force : Bool) :
    IndexOutcome :=
  if !fs.path_exists then { result := .error .pathNotFound, store := st }
  else
    let st1 := if force then clear_repo_index st repo_path else st
    let files := collect_files fs.tree
    let r := files.foldl (index_step fs repo_path) (st1, 0, 0)
    { result := .ok { repo_path := repo_path, files_indexed := r.2.1,
                      chunks_created := r.2.2, files_found := files.length }
      store := r.1 }

/-- The number of chunks one candidate file contributes (zero on a read
failure or per-file exception) — the per-file summary the aggregate counts
of `index_repository` are proved against. -/
def chunks_added (fs : FileSystem) (repo_path file_path : String) : Nat :=
  match index_file fs repo_path file_path [] with
  | .ok (_, n) => n
  | .error _ => 0

/-- The rows one candidate file appends to the table (empty on a read
failure or per-file exception). -/
def file_rows (fs : FileSystem) (repo_path file_path : String) : Store :=
  match index_file fs repo_path file_path [] with
  | .ok (st', _) => st'
  | .error _ => []

/-- The success body of the `/reindex` handler in `app.py` (the
`duration_seconds` timing field is outside the model). -/
structure ReindexResponse where
  success : Bool
  files_updated : Nat
  chunks_created : Nat
  deriving Repr, DecidableEq

/-- The `/reindex` HTTP handler of `app.py`: despite its docstring it
performs `flow.index_repository(repo_path, force=True)` and repackages the
statistics; on an exception it answers a failure body (HTTP 500). -/
def reindex (fs : FileSystem) (st : Store) (repo_path : String) : ReindexResponse × Store :=
  let o := index_repository fs st repo_path true
  match o.result with
  | .ok stats =>
    ({ success := true, files_updated := stats.files_indexed,
       chunks_created := stats.chunks_created }, o.store)
  | .error _ => ({ success := false, files_updated := 0, chunks_created := 0 }, o.store)

/-- A row returned by the search SQL of `CocoIndexFlow.search`:
`distance` is the cosine distance `embedding <=> query_vector` computed by
the external vector index. The SQL aliases `1 - distance` as `score`,
orders ascending by distance and limits to `2 * limit`; those database
guarantees enter the theorems as hypotheses on the candidate list. -/
structure DbRow where
  file_path : String
  chunk_text : String
  chunk_type : String
  start_line : Nat
  end_line : Nat
  language : String
  distance : ℚ
  deriving Repr, DecidableEq

/-- The `score` column: `1 - (embedding <=> query)`. -/
def row_score (r : DbRow) : ℚ := 1 - r.distance

/-- One formatted entry of the result list built in `CocoIndexFlow.search`. -/
structure SearchResult where
  file_path : String
  chunk_text : String
  chunk_type : String
  start_line : Nat
  end_line : Nat
  language : String
  score : ℚ
  description : String
  deriving Repr, DecidableEq

/-- The dict appended to `filtered_results` for one passing row. -/
def format_result (r : DbRow) : SearchResult :=
  { file_path := r.file_path
    chunk_text := r.chunk_text
    chunk_type := r.chunk_type
    start_line := r.start_line
    end_line := r.end_line
    language := r.language
    score := row_score r
    description := r.chunk_type ++ " (lines " ++ toString r.start_line ++ "-"
      ++ toString r.end_line ++ ")" }

/-- The threshold pass of `CocoIndexFlow.search`: keep the fetched rows
whose `score >= threshold`, in fetched order. -/
def threshold_filter (rows : List DbRow) (threshold : ℚ) : List SearchResult :=
  (rows.filter (fun r => decide (threshold ≤ row_score r))).map format_result

/-- The tail of `CocoIndexFlow.search` after the database round-trip:
threshold filter, then `filtered_results[:limit]`. -/
def search_results (rows : List DbRow) (limit : Nat) (threshold : ℚ) : List SearchResult :=
  (threshold_filter rows threshold).take limit

/-- The exact trace of the sliding-window loop: from 0-based offset `s` with
running index `num`, the loop either emits its final chunk (window end
clamped to `total_lines`) or emits a full window and continues from
`s + max_chunk_size - chunk_overlap`. Proofs about every sliding-window
property of `chunk_code` factor through this relation. -/
inductive SlidingChain (file_path language : String) (lines : List String)
    (total_lines max_chunk_size chunk_overlap : Nat) : Nat → Nat → List Chunk → Prop
  | last (s num : Nat) (hs : s < total_lines) (hend : total_lines ≤ s + max_chunk_size) :
      SlidingChain file_path language lines total_lines max_chunk_size chunk_overlap s num
        [chunk_window file_path language lines total_lines max_chunk_size s num]
  | step (s num : Nat) (hend : s + max_chunk_size < total_lines) (rest : List Chunk)
      (hrest : SlidingChain file_path language lines total_lines max_chunk_size chunk_overlap
        (s + max_chunk_size - chunk_overlap) (num + 1) rest) :
      SlidingChain file_path language lines total_lines max_chunk_size chunk_overlap s num
        (chunk_window file_path language lines total_lines max_chunk_size s num :: rest)

/-- A repo-relative file path the scanner must return: an indexable file in
the current directory, or one below a subdirectory that no skip pattern
prunes. The file rule consults only `should_index` (the extension
allow-list); `should_skip` appears only in the directory rule — this is the
shape claim C10 is about. -/
inductive ScanReachable : String → List FSTree → String → Prop
  | here (relDir : String) (entries : List FSTree) (n : String)
      (hmem : FSTree.file n ∈ entries) (hidx : should_index (rel_join relDir n) = true) :
      ScanReachable relDir entries (rel_join relDir n)
  | deeper (relDir : String) (entries : List FSTree) (n : String) (sub : List FSTree) (p : String)
      (hmem : FSTree.dir n sub ∈ entries) (hkeep : should_skip (rel_join relDir n) = false)
      (hsub : ScanReachable (rel_join relDir n) sub p) :
      ScanReachable relDir entries p

@[simp] theorem chunk_window_start_line (fp lang : String) (lines : List String)
    (total max_sz s num : Nat) :
    (chunk_window fp lang lines total max_sz s num).start_line = s + 1 := rfl

@[simp] theorem chunk_window_end_line (fp lang : String) (lines : List String)
    (total max_sz s num : Nat) :
    (chunk_window fp lang lines total max_sz s num).end_line = min (s + max_sz) total := rfl

@[simp] theorem chunk_window_chunk_number (fp lang : String) (lines : List String)
    (total max_sz s num : Nat) :
    (chunk_window fp lang lines total max_sz s num).metadata.chunk_number = some num := rfl

@[simp] theorem fill_start_line (n : Nat) (c : Chunk) :
    (fill_total_chunks n c).start_line = c.start_line := rfl

@[simp] theorem fill_end_line (n : Nat) (c : Chunk) :
    (fill_total_chunks n c).end_line = c.end_line := rfl

@[simp] theorem fill_chunk_number (n : Nat) (c : Chunk) :
    (fill_total_chunks n c).metadata.chunk_number = c.metadata.chunk_number := rfl

@[simp] theorem fill_total (n : Nat) (c : Chunk) :
    (fill_total_chunks n c).metadata.total_chunks = some (n : Int) := rfl

theorem chunk_loop_sound (fp lang : String) (lines : List String)
    (total max_sz ov : Nat) (hov : ov < max_sz) :
    ∀ fuel s num, s < total → total - s < fuel →
      ∃ cs, chunk_loop fp lang lines total max_sz ov fuel s num = some cs ∧
        SlidingChain fp lang lines total max_sz ov s num cs := by
  intro fuel
  induction fuel with
  | zero => intro s num hs hf; omega
  | succ fuel ih =>
    intro s num hs hf
    by_cases hend : total ≤ min (s + max_sz) total
    · refine ⟨[chunk_window fp lang lines total max_sz s num], ?_, ?_⟩
      · simp only [chunk_loop, if_pos hs, if_pos hend]
      · exact .last s num hs (by omega)
    · have hlt : s + max_sz < total := by omega
      have hmin : min (s + max_sz) total = s + max_sz := by omega
      obtain ⟨rest, hrest, hchain⟩ :=
        ih (s + max_sz - ov) (num + 1) (by omega) (by omega)
      refine ⟨chunk_window fp lang lines total max_sz s num :: rest, ?_, ?_⟩
      · simp only [chunk_loop, if_pos hs, if_neg hend, hmin]
        rw [hrest, if_neg (by omega : ¬ total ≤ s + max_sz)]
      · exact .step s num hlt rest hchain

theorem chain_ne_nil {fp lang : String} {lines : List String}
    {total max_sz ov s num : Nat} {cs : List Chunk}
    (h : SlidingChain fp lang lines total max_sz ov s num cs) : cs ≠ [] := by
  cases h <;> simp

theorem chain_head {fp lang : String} {lines : List String}
    {total max_sz ov s num : Nat} {cs : List Chunk}
    (h : SlidingChain fp lang lines total max_sz ov s num cs) :
    cs.head? = some (chunk_window fp lang lines total max_sz s num) := by
  cases h <;> rfl

theorem chain_mem {fp lang : String} {lines : List String}
    {total max_sz ov s num : Nat} {cs : List Chunk}
    (h : SlidingChain fp lang lines total max_sz ov s num cs) :
    ∀ c ∈ cs, ∃ s' num', s' < total ∧
      c = chunk_window fp lang lines total max_sz s' num' := by
  induction h with
  | last s num hs hend =>
    intro c hc
    rw [List.mem_singleton] at hc
    exact ⟨s, num, hs, hc⟩
  | step s num hend rest hrest ih =>
    intro c hc
    rcases List.mem_cons.1 hc with hc | hc
    · exact ⟨s, num, by omega, hc⟩
    · exact ih c hc

theorem chain_last_end {fp lang : String} {lines : List String}
    {total max_sz ov s num : Nat} {cs : List Chunk}
    (h : SlidingChain fp lang lines total max_sz ov s num cs) :
    cs.getLast?.map Chunk.end_line = some total := by
  induction h with
  | last s num hs hend =>
    simp [List.getLast?, chunk_window_end_line]
    omega
  | step s num hend rest hrest ih =>
    obtain ⟨b, t, rfl⟩ := List.exists_cons_of_ne_nil (chain_ne_nil hrest)
    rwa [List.getLast?_cons_cons]

theorem chain_dropLast_end {fp lang : String} {lines : List String}
    {total max_sz ov s num : Nat} {cs : List Chunk}
    (h : SlidingChain fp lang lines total max_sz ov s num cs) :
    ∀ c ∈ cs.dropLast, c.end_line < total := by
  induction h with
  | last s num hs hend => simp
  | step s num hend rest hrest ih =>
    obtain ⟨b, t, rfl⟩ := List.exists_cons_of_ne_nil (chain_ne_nil hrest)
    intro c hc
    rcases List.mem_cons.1 (by simpa using hc) with hc' | hc'
    · subst hc'
      simp [chunk_window_end_line]
      omega
    · exact ih c hc'

theorem chain_step_start {fp lang : String} {lines : List String}
    {total max_sz ov s num : Nat} {cs : List Chunk} (hov : ov < max_sz)
    (h : SlidingChain fp lang lines total max_sz ov s num cs) :
    List.Chain' (fun a b => b.start_line = a.start_line + (max_sz - ov)) cs := by
  induction h with
  | last s num hs hend => simp
  | step s num hend rest hrest ih =>
    rw [List.chain'_cons']
    refine ⟨?_, ih⟩
    intro b hb
    rw [chain_head hrest] at hb
    cases hb
    simp [chunk_window_start_line]
    omega

theorem chain_overlap {fp lang : String} {lines : List String}
    {total max_sz ov s num : Nat} {cs : List Chunk} (hov : ov < max_sz)
    (h : SlidingChain fp lang lines total max_sz ov s num cs) :
    List.Chain' (fun a b => a.end_line + 1 = b.start_line + ov) cs := by
  induction h with
  | last s num hs hend => simp
  | step s num hend rest hrest ih =>
    rw [List.chain'_cons']
    refine ⟨?_, ih⟩
    intro b hb
    rw [chain_head hrest] at hb
    cases hb
    simp [chunk_window_start_line, chunk_window_end_line]
    omega

theorem chain_mono_start {fp lang : String} {lines : List String}
    {total max_sz ov s num : Nat} {cs : List Chunk} (hov : ov < max_sz)
    (h : SlidingChain fp lang lines total max_sz ov s num cs) :
    List.Chain' (fun a b => a.start_line < b.start_line) cs := by
  have := chain_step_start hov h
  refine List.Chain'.imp ?_ this
  intro a b hab
  omega

theorem chain_numbers {fp lang : String} {lines : List String}
    {total max_sz ov s num : Nat} {cs : List Chunk}
    (h : SlidingChain fp lang lines total max_sz ov s num cs) :
    cs.map (fun c => c.metadata.chunk_number) = (List.range' num cs.length).map some := by
  induction h with
  | last s num hs hend => simp [List.range']
  | step s num hend rest hrest ih => simp [List.range', ih]

theorem chain_cover {fp lang : String} {lines : List String}
    {total max_sz ov s num : Nat} {cs : List Chunk}
    (h : SlidingChain fp lang lines total max_sz ov s num cs) :
    ∀ l, s + 1 ≤ l → l ≤ total → ∃ c ∈ cs, c.start_line ≤ l ∧ l ≤ c.end_line := by
  induction h with
  | last s num hs hend =>
    intro l h1 h2
    refine ⟨chunk_window fp lang lines total max_sz s num, List.mem_singleton.2 rfl, ?_, ?_⟩
    · simpa using h1
    · simp
      omega
  | step s num hend rest hrest ih =>
    intro l h1 h2
    by_cases hl : l ≤ s + max_sz
    · refine ⟨chunk_window fp lang lines total max_sz s num, List.mem_cons_self _ _, ?_, ?_⟩
      · simpa using h1
      · simp
        omega
    · obtain ⟨c, hc, hcl, hcr⟩ := ih l (by omega) h2
      exact ⟨c, List.mem_cons_of_mem _ hc, hcl, hcr⟩

theorem chunk_code_sliding (fp content : String) (max_sz ov : Nat)
    (htot : max_sz < (split_lines content).length) (hov : ov < max_sz) :
    ∃ cs, chunk_code fp content max_sz ov = some (cs.map (fill_total_chunks cs.length)) ∧
      SlidingChain fp (get_language_from_extension fp) (split_lines content)
        (split_lines content).length max_sz ov 0 0 cs := by
  obtain ⟨cs, hloop, hchain⟩ :=
    chunk_loop_sound fp (get_language_from_extension fp) (split_lines content)
      (split_lines content).length max_sz ov hov ((split_lines content).length + 1) 0 0
      (by omega) (by omega)
  refine ⟨cs, ?_, hchain⟩
  simp only [chunk_code]
  rw [if_neg (by omega), hloop]

theorem chunk_code_whole (fp content : String) (max_sz ov : Nat)
    (h : (split_lines content).length ≤ max_sz) :
    chunk_code fp content max_sz ov =
      some [{ file_path := fp, chunk_text := content, chunk_type := "whole_file",
              start_line := 1, end_line := (split_lines content).length,
              language := get_language_from_extension fp,
              metadata := { total_lines := (split_lines content).length,
                            is_truncated := false, chunk_number := none,
                            total_chunks := none } }] := by
  simp only [chunk_code]
  rw [if_pos h]

/-- C3: a file of at most `maxChunkSize` lines yields exactly one
`whole_file` chunk spanning lines `1..totalLines` (whose text is the whole
content and whose metadata carries neither `chunk_number` nor
`total_chunks`); in particular any 50-line content with `maxChunkSize=500`
yields one chunk spanning lines 1–50. -/
theorem claim_C3 (fp content : String) (max_sz ov : Nat)
    (h : (split_lines content).length ≤ max_sz) :
    chunk_code fp content max_sz ov =
      some [{ file_path := fp, chunk_text := content, chunk_type := "whole_file",
              start_line := 1, end_line := (split_lines content).length,
              language := get_language_from_extension fp,
              metadata := { total_lines := (split_lines content).length,
                            is_truncated := false, chunk_number := none,
                            total_chunks := none } }] ∧
    (∀ c2 : String, ∀ ov2 : Nat, (split_lines c2).length = 50 →
      (chunk_code fp c2 500 ov2).map
          (fun l => l.map (fun c => (c.chunk_type, c.start_line, c.end_line))) =
        some [("whole_file", 1, 50)]) := by
  constructor
  · exact chunk_code_whole fp content max_sz ov h
  · intro c2 ov2 h50
    simp only [chunk_code]
    rw [if_pos (by omega : (split_lines c2).length ≤ 500)]
    simp [h50]

/-- Witness for C3 at a concrete 2-line file. -/
theorem claim_C3_witness :
    chunk_code "a.py" "x\ny" 500 100 =
      some [{ file_path := "a.py", chunk_text := "x\ny", chunk_type := "whole_file",
              start_line := 1, end_line := (split_lines "x\ny").length,
              language := get_language_from_extension "a.py",
              metadata := { total_lines := (split_lines "x\ny").length,
                            is_truncated := false, chunk_number := none,
                            total_chunks := none } }] :=
  (claim_C3 "a.py" "x\ny" 500 100 (by decide)).1

/-- C6: under the precondition `chunkOverlap < maxChunkSize`, `chunk_code`
terminates (returns a value rather than looping) for every content, and the
emitted chunks' window starts strictly increase. -/
theorem claim_C6 (fp content : String) (max_sz ov : Nat) (hov : ov < max_sz) :
    ∃ cs, chunk_code fp content max_sz ov = some cs ∧
      List.Chain' (fun a b => a.start_line < b.start_line) cs := by
  by_cases h : (split_lines content).length ≤ max_sz
  · refine ⟨_, chunk_code_whole fp content max_sz ov h, ?_⟩
    simp
  · obtain ⟨cs, hcode, hchain⟩ := chunk_code_sliding fp content max_sz ov (by omega) hov
    refine ⟨cs.map (fill_total_chunks cs.length), hcode, ?_⟩
    rw [List.chain'_map]
    simpa using chain_mono_start hov hchain

/-- Witness for C6 at a concrete diverging-prone configuration that does
satisfy the precondition. -/
theorem claim_C6_witness :
    ∃ cs, chunk_code "a.py" "x\ny\nz" 2 1 = some cs ∧
      List.Chain' (fun a b => a.start_line < b.start_line) cs :=
  claim_C6 "a.py" "x\ny\nz" 2 1 (by decide)

theorem dropLast_map_eq {α β : Type} (f : α → β) :
    ∀ l : List α, (l.map f).dropLast = l.dropLast.map f := by
  intro l
  rw [List.dropLast_eq_take, List.dropLast_eq_take, List.length_map, List.map_take]

theorem chunk_ranges_1200 (fp content : String) (h : (split_lines content).length = 1200) :
    (chunk_code fp content 500 100).map
        (fun l => l.map (fun c => (c.start_line, c.end_line))) =
      some [(1, 500), (401, 900), (801, 1200)] := by
  simp only [chunk_code]
  rw [h]
  rfl

/-- C1: for `totalLines > maxChunkSize` and `chunkOverlap < maxChunkSize`,
`chunk_code` emits sliding-window chunks: the first starts at line 1
(0-based offset 0), each window's end is `min(offset + maxChunkSize,
totalLines)`, successive starts advance by `maxChunkSize − chunkOverlap`,
the last chunk ends exactly at `totalLines`, every earlier chunk ends
before it (no trailing empty chunk; every chunk is nonempty), and every
consecutive pair satisfies `endLine + 1 = nextStartLine + chunkOverlap`
(the claim's `endLine − nextStartLine + 1 = chunkOverlap`, stated over ℕ) —
in particular any 1200-line content with `maxChunkSize=500`,
`chunkOverlap=100` yields exactly the chunks 1–500, 401–900, 801–1200. -/
theorem claim_C1 (fp content : String) (max_sz ov : Nat)
    (htot : max_sz < (split_lines content).length) (hov : ov < max_sz) :
    ∃ ds, chunk_code fp content max_sz ov = some ds ∧
      ds ≠ [] ∧
      ds.head?.map Chunk.start_line = some 1 ∧
      (∀ c ∈ ds, c.end_line = min (c.start_line - 1 + max_sz) (split_lines content).length) ∧
      List.Chain' (fun a b => b.start_line = a.start_line + (max_sz - ov)) ds ∧
      ds.getLast?.map Chunk.end_line = some (split_lines content).length ∧
      (∀ c ∈ ds.dropLast, c.end_line < (split_lines content).length) ∧
      (∀ c ∈ ds, c.start_line ≤ c.end_line) ∧
      List.Chain' (fun a b => a.end_line + 1 = b.start_line + ov) ds ∧
      (∀ content2 : String, (split_lines content2).length = 1200 →
        (chunk_code fp content2 500 100).map
            (fun l => l.map (fun c => (c.start_line, c.end_line))) =
          some [(1, 500), (401, 900), (801, 1200)]) := by
  obtain ⟨cs, hcode, hchain⟩ := chunk_code_sliding fp content max_sz ov htot hov
  refine ⟨cs.map (fill_total_chunks cs.length), hcode, ?_, ?_, ?_, ?_, ?_, ?_, ?_, ?_, ?_⟩
  · simpa using chain_ne_nil hchain
  · rw [List.head?_map, chain_head hchain]
    rfl
  · intro c hc
    obtain ⟨c0, hc0, rfl⟩ := List.mem_map.1 hc
    obtain ⟨s', num', hs', rfl⟩ := chain_mem hchain c0 hc0
    simp
  · rw [List.chain'_map]
    refine List.Chain'.imp ?_ (chain_step_start hov hchain)
    intro a b hab
    simpa using hab
  · rw [List.getLast?_map]
    have := chain_last_end hchain
    cases hl : cs.getLast? with
    | none => rw [hl] at this; simp at this
    | some c =>
      rw [hl] at this
      simpa using this
  · rw [dropLast_map_eq]
    intro c hc
    obtain ⟨c0, hc0, rfl⟩ := List.mem_map.1 hc
    simpa using chain_dropLast_end hchain c0 hc0
  · intro c hc
    obtain ⟨c0, hc0, rfl⟩ := List.mem_map.1 hc
    obtain ⟨s', num', hs', rfl⟩ := chain_mem hchain c0 hc0
    simp
    omega
  · rw [List.chain'_map]
    refine List.Chain'.imp ?_ (chain_overlap hov hchain)
    intro a b hab
    simpa using hab
  · intro content2 h1200
    exact chunk_ranges_1200 fp content2 h1200

/-- Witness for C1 at a concrete 3-line file with window 2 and overlap 1. -/
theorem claim_C1_witness :
    2 < (split_lines "x\ny\nz").length ∧
    (∃ ds, chunk_code "a.py" "x\ny\nz" 2 1 = some ds ∧
      ds.head?.map Chunk.start_line = some 1 ∧
      ds.getLast?.map Chunk.end_line = some (split_lines "x\ny\nz").length) := by
  refine ⟨by decide, ?_⟩
  obtain ⟨ds, h1, _, h3, _, _, h6, _⟩ := claim_C1 "a.py" "x\ny\nz" 2 1 (by decide) (by decide)
  exact ⟨ds, h1, h3, h6⟩

/-- C2 is false as frozen (it quantifies over every `maxChunkSize ≥ 1` with
no constraint on `chunkOverlap`): with `maxChunkSize = 1` and the default
`chunkOverlap = 100`, a 2-line content makes the sliding window lose
forward progress, the source loop never returns, and no chunk sequence —
covering or otherwise — exists. -/
theorem claim_C2_counterexample :
    ¬ ∃ cs, chunk_code "f.py" "a\nb" 1 100 = some cs ∧
      (∀ l, 1 ≤ l → l ≤ (split_lines "a\nb").length →
        ∃ c ∈ cs, c.start_line ≤ l ∧ l ≤ c.end_line) := by
  rintro ⟨cs, h, -⟩
  have hnone : chunk_code "f.py" "a\nb" 1 100 = none := by decide
  rw [hnone] at h
  exact Option.noConfusion h

/-- C2 (amended): for every content and `maxChunkSize ≥ 1`, provided
additionally `chunkOverlap < maxChunkSize` (the precondition §4.2 of the
spec already demands), the returned chunk ranges cover `[1, totalLines]`
with no line missed and no gap between consecutive chunks. -/
theorem claim_C2_amended (fp content : String) (max_sz ov : Nat)
    (_hmax : 1 ≤ max_sz) (hov : ov < max_sz) :
    ∃ cs, chunk_code fp content max_sz ov = some cs ∧
      (∀ l, 1 ≤ l → l ≤ (split_lines content).length →
        ∃ c ∈ cs, c.start_line ≤ l ∧ l ≤ c.end_line) ∧
      List.Chain' (fun a b => b.start_line ≤ a.end_line + 1) cs := by
  by_cases h : (split_lines content).length ≤ max_sz
  · refine ⟨_, chunk_code_whole fp content max_sz ov h, ?_, ?_⟩
    · intro l h1 h2
      exact ⟨_, List.mem_singleton.2 rfl, h1, h2⟩
    · simp
  · obtain ⟨cs, hcode, hchain⟩ := chunk_code_sliding fp content max_sz ov (by omega) hov
    refine ⟨cs.map (fill_total_chunks cs.length), hcode, ?_, ?_⟩
    · intro l h1 h2
      obtain ⟨c, hc, hcl, hcr⟩ := chain_cover hchain l (by omega) h2
      refine ⟨fill_total_chunks cs.length c, List.mem_map_of_mem _ hc, ?_, ?_⟩
      · simpa using hcl
      · simpa using hcr
    · rw [List.chain'_map]
      refine List.Chain'.imp ?_ (chain_overlap hov hchain)
      intro a b hab
      simp only [fill_start_line, fill_end_line]
      omega

/-- Witness for the amended C2 at a concrete 3-line file. -/
theorem claim_C2_witness :
    ∃ cs, chunk_code "a.py" "x\ny\nz" 2 1 = some cs ∧
      (∀ l, 1 ≤ l → l ≤ (split_lines "x\ny\nz").length →
        ∃ c ∈ cs, c.start_line ≤ l ∧ l ≤ c.end_line) ∧
      List.Chain' (fun a b => b.start_line ≤ a.end_line + 1) cs :=
  claim_C2_amended "a.py" "x\ny\nz" 2 1 (by decide) (by decide)

/-- C5: for a file split into several chunks (`totalLines > maxChunkSize`
under the loop precondition), at least two chunks are produced, every chunk
carries `totalChunks` equal to the number of chunks produced, and the
`chunkNumber` values are exactly the contiguous 0-based sequence
`0..totalChunks-1`; a whole-file chunk carries neither field. -/
theorem claim_C5 (fp content : String) (max_sz ov : Nat) (hov : ov < max_sz) :
    (∀ cs, max_sz < (split_lines content).length →
      chunk_code fp content max_sz ov = some cs →
      2 ≤ cs.length ∧
      (∀ c ∈ cs, c.metadata.total_chunks = some (cs.length : Int)) ∧
      cs.map (fun c => c.metadata.chunk_number) = (List.range cs.length).map some) ∧
    (∀ cs, (split_lines content).length ≤ max_sz →
      chunk_code fp content max_sz ov = some cs →
      ∀ c ∈ cs, c.metadata.chunk_number = none ∧ c.metadata.total_chunks = none) := by
  constructor
  · intro cs htot hcs
    obtain ⟨cs0, hcode, hchain⟩ := chunk_code_sliding fp content max_sz ov htot hov
    rw [hcode] at hcs
    injection hcs with hcs
    subst hcs
    refine ⟨?_, ?_, ?_⟩
    · rcases hchain with ⟨_, _, _, hend⟩ | ⟨_, _, hend, rest, hrest⟩
      · omega
      · have := chain_ne_nil hrest
        simp [List.length_map]
        cases rest with
        | nil => exact absurd rfl this
        | cons b t => simp
    · intro c hc
      obtain ⟨c0, hc0, rfl⟩ := List.mem_map.1 hc
      simp [List.length_map]
    · have hnum := chain_numbers hchain
      rw [List.length_map, List.range_eq_range']
      calc (cs0.map (fill_total_chunks cs0.length)).map (fun c => c.metadata.chunk_number)
          = cs0.map (fun c => c.metadata.chunk_number) := by
            rw [List.map_map]
            rfl
        _ = (List.range' 0 cs0.length).map some := hnum
  · intro cs h hcs
    rw [chunk_code_whole fp content max_sz ov h] at hcs
    injection hcs with hcs
    subst hcs
    intro c hc
    rw [List.mem_singleton] at hc
    subst hc
    exact ⟨rfl, rfl⟩

/-- Witness for C5 at a concrete 3-line file chunked with window 2,
overlap 1 (two chunks), plus the whole-file side at the same input with a
large window. -/
theorem claim_C5_witness :
    (∃ cs, chunk_code "a.py" "1\n2\n3" 2 1 = some cs ∧ 2 ≤ cs.length ∧
      (∀ c ∈ cs, c.metadata.total_chunks = some (cs.length : Int)) ∧
      cs.map (fun c => c.metadata.chunk_number) = (List.range cs.length).map some) ∧
    (∃ cs, chunk_code "a.py" "1\n2\n3" 500 1 = some cs ∧
      ∀ c ∈ cs, c.metadata.chunk_number = none ∧ c.metadata.total_chunks = none) := by
  constructor
  · have hsome : (chunk_code "a.py" "1\n2\n3" 2 1).isSome := by decide
    obtain ⟨cs, hcs⟩ := Option.isSome_iff_exists.1 hsome
    obtain ⟨h1, h2, h3⟩ := (claim_C5 "a.py" "1\n2\n3" 2 1 (by decide)).1 cs (by decide) hcs
    exact ⟨cs, hcs, h1, h2, h3⟩
  · have hsome : (chunk_code "a.py" "1\n2\n3" 500 1).isSome := by decide
    obtain ⟨cs, hcs⟩ := Option.isSome_iff_exists.1 hsome
    exact ⟨cs, hcs, (claim_C5 "a.py" "1\n2\n3" 500 1 (by decide)).2 cs (by decide) hcs⟩

/-- C4: given the candidate rows the database returns sorted by ascending
cosine distance, the search result is sorted by descending score, every
returned score is at least the threshold (a candidate scoring exactly the
threshold survives the filter, one strictly below is never returned), the
result holds at most `limit` entries, and when no candidate passes the
threshold the result is the empty list rather than an error. -/
theorem claim_C4 (rows : List DbRow) (limit : Nat) (threshold : ℚ)
    (hsorted : List.Pairwise (fun a b => a.distance ≤ b.distance) rows) :
    List.Pairwise (fun a b => b.score ≤ a.score) (search_results rows limit threshold) ∧
    (∀ r ∈ search_results rows limit threshold, threshold ≤ r.score) ∧
    (search_results rows limit threshold).length ≤ limit ∧
    ((∀ r ∈ rows, row_score r < threshold) → search_results rows limit threshold = []) ∧
    (∀ r ∈ rows, row_score r = threshold → format_result r ∈ threshold_filter rows threshold) ∧
    (∀ r ∈ rows, row_score r < threshold →
      format_result r ∉ search_results rows limit threshold) := by
  have hmem : ∀ r ∈ search_results rows limit threshold, threshold ≤ r.score := by
    intro r hr
    have hr' := List.mem_of_mem_take hr
    obtain ⟨r0, hr0, rfl⟩ := List.mem_map.1 hr'
    have := (List.mem_filter.1 hr0).2
    simpa [format_result] using of_decide_eq_true this
  refine ⟨?_, hmem, ?_, ?_, ?_, ?_⟩
  · refine List.Pairwise.sublist (List.take_sublist _ _) ?_
    simp only [threshold_filter]
    rw [List.pairwise_map]
    refine List.Pairwise.imp ?_ (List.Pairwise.filter _ hsorted)
    intro a b hab
    simp only [format_result, row_score]
    linarith
  · exact List.length_take_le _ _
  · intro hall
    have : List.filter (fun r => decide (threshold ≤ row_score r)) rows = [] := by
      rw [List.filter_eq_nil_iff]
      intro r hr
      simpa using not_le.2 (hall r hr)
    simp [search_results, threshold_filter, this]
  · intro r hr hscore
    exact List.mem_map_of_mem _ (List.mem_filter.2 ⟨hr, by simp [hscore]⟩)
  · intro r hr hscore hin
    have := hmem _ hin
    simp only [format_result] at this
    exact absurd this (not_le.2 hscore)

/-- Witness for C4 at two concrete candidate rows (cosine similarities 0.92
and 0.5, threshold 0.7, limit 5), the spec's Example 3 configuration. -/
theorem claim_C4_witness :
    List.Pairwise (fun a b => b.score ≤ a.score)
      (search_results
        [{ file_path := "a", chunk_text := "t", chunk_type := "whole_file",
           start_line := 1, end_line := 2, language := "python", distance := mkRat 8 100 },
         { file_path := "b", chunk_text := "u", chunk_type := "chunk_0",
           start_line := 1, end_line := 500, language := "go", distance := mkRat 1 2 }]
        5 (mkRat 7 10)) ∧
    (∀ r ∈ search_results
        [{ file_path := "a", chunk_text := "t", chunk_type := "whole_file",
           start_line := 1, end_line := 2, language := "python", distance := mkRat 8 100 },
         { file_path := "b", chunk_text := "u", chunk_type := "chunk_0",
           start_line := 1, end_line := 500, language := "go", distance := mkRat 1 2 }]
        5 (mkRat 7 10), mkRat 7 10 ≤ r.score) ∧
    (search_results
        [{ file_path := "a", chunk_text := "t", chunk_type := "whole_file",
           start_line := 1, end_line := 2, language := "python", distance := mkRat 8 100 },
         { file_path := "b", chunk_text := "u", chunk_type := "chunk_0",
           start_line := 1, end_line := 500, language := "go", distance := mkRat 1 2 }]
        5 (mkRat 7 10)).length ≤ 5 := by
  obtain ⟨h1, h2, h3, -⟩ :=
    claim_C4
      [{ file_path := "a", chunk_text := "t", chunk_type := "whole_file",
         start_line := 1, end_line := 2, language := "python", distance := mkRat 8 100 },
       { file_path := "b", chunk_text := "u", chunk_type := "chunk_0",
         start_line := 1, end_line := 500, language := "go", distance := mkRat 1 2 }]
      5 (mkRat 7 10) (by decide)
  exact ⟨h1, h2, h3⟩

theorem index_file_cases (fs : FileSystem) (repo f : String) (st : Store) :
    index_file fs repo f st = .ok (st ++ file_rows fs repo f, chunks_added fs repo f) ∨
    (index_file fs repo f st = .error () ∧ chunks_added fs repo f = 0 ∧
      file_rows fs repo f = []) := by
  unfold file_rows chunks_added index_file
  cases hr : fs.read_file f with
  | none => left; simp [hr]
  | some content =>
    cases hc : smart_chunk f content MAX_CHUNK_SIZE CHUNK_OVERLAP false with
    | none => right; simp [hr, hc]
    | some chunks =>
      by_cases hemp : chunks.isEmpty
      · left; simp [hr, hc, hemp]
      · by_cases hok : fs.embed_ok f
        · left; simp [hr, hc, hemp, hok]
        · right; simp [hr, hc, hemp, hok]

theorem triple_eq {x1 y1 : Store} {x2 y2 x3 y3 : Nat}
    (h1 : x1 = y1) (h2 : x2 = y2) (h3 : x3 = y3) :
    (x1, x2, x3) = (y1, y2, y3) := by
  subst h1
  subst h2
  subst h3
  rfl

theorem index_fold (fs : FileSystem) (repo : String) :
    ∀ (files : List String) (st : Store) (a b : Nat),
      files.foldl (index_step fs repo) (st, a, b) =
        (st ++ files.flatMap (file_rows fs repo),
         a + files.countP (fun f => decide (0 < chunks_added fs repo f)),
         b + (files.map (chunks_added fs repo)).sum) := by
  intro files
  induction files with
  | nil => intro st a b; simp
  | cons f t ih =>
    intro st a b
    simp only [List.foldl_cons]
    rcases index_file_cases fs repo f st with h | ⟨h, h0, hrows⟩
    · by_cases hn : 0 < chunks_added fs repo f
      · have hstep : index_step fs repo (st, a, b) f =
            (st ++ file_rows fs repo f, a + 1, b + chunks_added fs repo f) := by
          simp [index_step, h, hn]
        rw [hstep, ih]
        refine triple_eq ?_ ?_ ?_
        · simp [List.append_assoc]
        · simp [List.countP_cons, hn]
          omega
        · simp [List.map_cons, List.sum_cons]
          omega
      · have hz : chunks_added fs repo f = 0 := Nat.eq_zero_of_not_pos hn
        have hstep : index_step fs repo (st, a, b) f =
            (st ++ file_rows fs repo f, a, b) := by
          simp [index_step, h, hn, hz]
        rw [hstep, ih]
        refine triple_eq ?_ ?_ ?_
        · simp [List.append_assoc]
        · simp [List.countP_cons, hz]
        · simp [List.map_cons, List.sum_cons, hz]
    · have hstep : index_step fs repo (st, a, b) f = (st, a, b) := by
        simp [index_step, h]
      rw [hstep, ih]
      refine triple_eq ?_ ?_ ?_
      · simp [hrows]
      · simp [List.countP_cons, h0]
      · simp [List.map_cons, List.sum_cons, h0]

/-- C7: indexing a repository whose path does not exist fails with the
path-not-found error and leaves the table untouched — no rows written and
no force-delete performed — for `force = false` and `force = true` alike,
because the existence check precedes the force-triggered delete. -/
theorem claim_C7 (fs : FileSystem) (st : Store) (repo : String) (force : Bool)
    (h : fs.path_exists = false) :
    index_repository fs st repo force = { result := .error .pathNotFound, store := st } := by
  simp [index_repository, h]

/-- Witness for C7: a missing path with a non-empty prior store and
`force = true`; the prior rows survive untouched. -/
theorem claim_C7_witness :
    index_repository
      { path_exists := false, tree := [FSTree.file "a.py"],
        read_file := fun _ => some "x", mtime := fun _ => 3, embed_ok := fun _ => true }
      [{ repo_path := "/repo", file_path := "old.py", chunk_text := "t",
         chunk_type := "whole_file", start_line := 1, end_line := 1,
         language := "python",
         metadata := { total_lines := 1, is_truncated := false,
                       chunk_number := none, total_chunks := none },
         file_mtime := 0 }]
      "/repo" true =
    { result := .error .pathNotFound,
      store := [{ repo_path := "/repo", file_path := "old.py", chunk_text := "t",
                  chunk_type := "whole_file", start_line := 1, end_line := 1,
                  language := "python",
                  metadata := { total_lines := 1, is_truncated := false,
                                chunk_number := none, total_chunks := none },
                  file_mtime := 0 }] } :=
  claim_C7 _ _ "/repo" true rfl

/-- C8: when the repository path exists the call always returns aggregate
statistics (never a whole-call failure): a file whose read fails or whose
embedding/storage fails contributes zero chunks and is not counted as
indexed, and the loop continues over the remaining files; `files_indexed`
counts exactly the files that contributed at least one chunk and
`chunks_created` sums the per-file contributions. -/
theorem claim_C8 (fs : FileSystem) (st : Store) (repo : String) (force : Bool)
    (h : fs.path_exists = true) :
    (∃ st', index_repository fs st repo force =
      { result := Except.ok
          { repo_path := repo,
            files_indexed := (collect_files fs.tree).countP
              (fun f => decide (0 < chunks_added fs repo f)),
            chunks_created := ((collect_files fs.tree).map (chunks_added fs repo)).sum,
            files_found := (collect_files fs.tree).length },
        store := st' }) ∧
    (∀ f, fs.read_file f = none → chunks_added fs repo f = 0) ∧
    (∀ f, fs.embed_ok f = false → chunks_added fs repo f = 0) := by
  refine ⟨?_, ?_, ?_⟩
  · refine ⟨(if force then clear_repo_index st repo else st) ++
      (collect_files fs.tree).flatMap (file_rows fs repo), ?_⟩
    simp only [index_repository, h, Bool.not_true, Bool.false_eq_true, if_neg,
      reduceIte, index_fold]
    simp
  · intro f hf
    unfold chunks_added index_file
    rw [hf]
  · intro f hf
    unfold chunks_added index_file
    cases hr : fs.read_file f with
    | none => simp [hr]
    | some content =>
      cases hc : smart_chunk f content MAX_CHUNK_SIZE CHUNK_OVERLAP false with
      | none => simp [hr, hc]
      | some chunks =>
        by_cases hemp : chunks.isEmpty
        · simp [hr, hc, hemp]
        · simp [hr, hc, hemp, hf]

/-- Witness for C8: three candidate files — one good, one whose read fails,
one whose embedding fails — produce aggregate counts (1 indexed file, 1
chunk, 3 found) with no whole-call failure. -/
theorem claim_C8_witness :
    ∃ stats st',
      index_repository
        { path_exists := true,
          tree := [FSTree.file "a.py", FSTree.file "bad.py", FSTree.file "skip.py"],
          read_file := fun f => if f = "bad.py" then none else some "x",
          mtime := fun _ => 5, embed_ok := fun f => f != "skip.py" }
        [] "/r" false = { result := Except.ok stats, store := st' } ∧
      stats.files_found = 3 := by
  obtain ⟨st', hst⟩ :=
    (claim_C8
      { path_exists := true,
        tree := [FSTree.file "a.py", FSTree.file "bad.py", FSTree.file "skip.py"],
        read_file := fun f => if f = "bad.py" then none else some "x",
        mtime := fun _ => 5, embed_ok := fun f => f != "skip.py" }
      [] "/r" false rfl).1
  exact ⟨_, st', hst, by decide⟩

theorem file_rows_repo (fs : FileSystem) (repo f : String) :
    ∀ r ∈ file_rows fs repo f, r.repo_path = repo := by
  unfold file_rows index_file
  cases hr : fs.read_file f with
  | none => simp [hr]
  | some content =>
    cases hc : smart_chunk f content MAX_CHUNK_SIZE CHUNK_OVERLAP false with
    | none => simp [hr, hc]
    | some chunks =>
      by_cases hemp : chunks.isEmpty
      · simp [hr, hc, hemp]
      · by_cases hok : fs.embed_ok f
        · simp only [hr, hc, hemp, hok]
          intro r hrm
          simp only [Bool.false_eq_true, reduceIte, if_pos rfl] at hrm
          obtain ⟨c, hcm, rfl⟩ := List.mem_map.1 (by simpa using hrm)
          rfl
        · simp [hr, hc, hemp, hok]

theorem rows_for_clear (st : Store) (repo : String) :
    rows_for repo (clear_repo_index st repo) = [] := by
  unfold rows_for clear_repo_index
  rw [List.filter_eq_nil_iff]
  intro a ha
  simpa using (List.mem_filter.1 ha).2

theorem index_repository_store_force (fs : FileSystem) (st : Store) (repo : String)
    (hp : fs.path_exists = true) :
    (index_repository fs st repo true).store =
      clear_repo_index st repo ++ (collect_files fs.tree).flatMap (file_rows fs repo) := by
  simp only [index_repository, hp, Bool.not_true, Bool.false_eq_true, reduceIte, index_fold]

/-- C9: the `/reindex` handler is exactly `index_repository(repoPath,
force=true)` — it leaves the store `index_repository` leaves and repackages
its statistics — and that operation is a forced full re-index: when the
path exists, the resulting table is the prior table purged of the
repository's rows plus the rows of a fresh scan of every matching file, so
the repository's rows afterwards are exactly the fresh scan's rows,
independent of any prior state or modification time (nothing incremental). -/
theorem claim_C9 (fs : FileSystem) (st : Store) (repo : String) :
    (reindex fs st repo).2 = (index_repository fs st repo true).store ∧
    (∀ stats, (index_repository fs st repo true).result = Except.ok stats →
      (reindex fs st repo).1 = { success := true, files_updated := stats.files_indexed,
                                 chunks_created := stats.chunks_created }) ∧
    (fs.path_exists = true →
      (reindex fs st repo).2 =
        clear_repo_index st repo ++ (collect_files fs.tree).flatMap (file_rows fs repo)) ∧
    (fs.path_exists = true →
      rows_for repo ((reindex fs st repo).2) =
        (collect_files fs.tree).flatMap (file_rows fs repo)) := by
  have hstore : (reindex fs st repo).2 = (index_repository fs st repo true).store := by
    rcases hres : (index_repository fs st repo true).result with e | stats <;>
      simp [reindex, hres]
  refine ⟨hstore, ?_, ?_, ?_⟩
  · intro stats hok
    simp [reindex, hok]
  · intro hp
    rw [hstore, index_repository_store_force fs st repo hp]
  · intro hp
    rw [hstore, index_repository_store_force fs st repo hp]
    unfold rows_for
    rw [List.filter_append]
    have h1 : rows_for repo (clear_repo_index st repo) = [] := rows_for_clear st repo
    unfold rows_for at h1
    rw [h1, List.nil_append, List.filter_eq_self]
    intro r hrm
    obtain ⟨f, hf, hrf⟩ := List.mem_flatMap.1 hrm
    simpa using file_rows_repo fs repo f r hrf

/-- Witness for C9 at a concrete repository with one prior row and one
fresh file: the handler's resulting table is the purged prior table plus
the fresh rows, and the repository's rows are exactly the fresh rows. -/
theorem claim_C9_witness :
    ((reindex
        { path_exists := true, tree := [FSTree.file "a.py"],
          read_file := fun _ => some "x", mtime := fun _ => 3,
          embed_ok := fun _ => true }
        [{ repo_path := "/r", file_path := "old.py", chunk_text := "t",
           chunk_type := "whole_file", start_line := 1, end_line := 1,
           language := "python",
           metadata := { total_lines := 1, is_truncated := false,
                         chunk_number := none, total_chunks := none },
           file_mtime := 0 }]
        "/r").2 =
      clear_repo_index
        [{ repo_path := "/r", file_path := "old.py", chunk_text := "t",
           chunk_type := "whole_file", start_line := 1, end_line := 1,
           language := "python",
           metadata := { total_lines := 1, is_truncated := false,
                         chunk_number := none, total_chunks := none },
           file_mtime := 0 }] "/r" ++
      (collect_files [FSTree.file "a.py"]).flatMap
        (file_rows
          { path_exists := true, tree := [FSTree.file "a.py"],
            read_file := fun _ => some "x", mtime := fun _ => 3,
            embed_ok := fun _ => true } "/r")) ∧
    rows_for "/r"
        ((reindex
          { path_exists := true, tree := [FSTree.file "a.py"],
            read_file := fun _ => some "x", mtime := fun _ => 3,
            embed_ok := fun _ => true }
          [{ repo_path := "/r", file_path := "old.py", chunk_text := "t",
             chunk_type := "whole_file", start_line := 1, end_line := 1,
             language := "python",
             metadata := { total_lines := 1, is_truncated := false,
                           chunk_number := none, total_chunks := none },
             file_mtime := 0 }]
          "/r").2) =
      (collect_files [FSTree.file "a.py"]).flatMap
        (file_rows
          { path_exists := true, tree := [FSTree.file "a.py"],
            read_file := fun _ => some "x", mtime := fun _ => 3,
            embed_ok := fun _ => true } "/r") := by
  obtain ⟨-, -, h3, h4⟩ :=
    claim_C9
      { path_exists := true, tree := [FSTree.file "a.py"],
        read_file := fun _ => some "x", mtime := fun _ => 3,
        embed_ok := fun _ => true }
      [{ repo_path := "/r", file_path := "old.py", chunk_text := "t",
         chunk_type := "whole_file", start_line := 1, end_line := 1,
         language := "python",
         metadata := { total_lines := 1, is_truncated := false,
                       chunk_number := none, total_chunks := none },
         file_mtime := 0 }]
      "/r"
  exact ⟨h3 rfl, h4 rfl⟩

@[simp] theorem fs_list_size_nil : fs_size.fs_list_size [] = 0 := rfl

@[simp] theorem fs_list_size_cons (e : FSTree) (es : List FSTree) :
    fs_size.fs_list_size (e :: es) = fs_size e + fs_size.fs_list_size es := rfl

@[simp] theorem fs_size_file (n : String) : fs_size (FSTree.file n) = 1 := rfl

@[simp] theorem fs_size_dir (n : String) (sub : List FSTree) :
    fs_size (FSTree.dir n sub) = 1 + fs_size.fs_list_size sub := rfl

@[simp] theorem walk_list_nil (relDir : String) :
    walk_tree.walk_list relDir [] = [] := rfl

@[simp] theorem walk_list_cons (relDir : String) (e : FSTree) (es : List FSTree) :
    walk_tree.walk_list relDir (e :: es) =
      walk_tree relDir e ++ walk_tree.walk_list relDir es := rfl

@[simp] theorem walk_tree_file (relDir n : String) :
    walk_tree relDir (FSTree.file n) = [] := rfl

theorem walk_tree_dir (relDir n : String) (sub : List FSTree) :
    walk_tree relDir (FSTree.dir n sub) =
      if should_skip (rel_join relDir n) then []
      else dir_files (rel_join relDir n) sub ++ walk_tree.walk_list (rel_join relDir n) sub := rfl

theorem dir_files_mem (relDir p : String) (entries : List FSTree) :
    p ∈ dir_files relDir entries ↔
      ∃ n, FSTree.file n ∈ entries ∧ should_index (rel_join relDir n) = true ∧
        p = rel_join relDir n := by
  unfold dir_files
  rw [List.mem_filterMap]
  constructor
  · rintro ⟨e, he, heq⟩
    cases e with
    | file n =>
      by_cases hi : should_index (rel_join relDir n)
      · simp only [hi, if_true] at heq
        injection heq with heq
        exact ⟨n, he, hi, heq.symm⟩
      · simp [hi] at heq
    | dir n sub => simp at heq
  · rintro ⟨n, he, hi, rfl⟩
    exact ⟨FSTree.file n, he, by simp [hi]⟩

theorem reachable_cons (relDir p : String) (e : FSTree) (es : List FSTree)
    (h : ScanReachable relDir es p) : ScanReachable relDir (e :: es) p := by
  cases h with
  | here _ _ n hm hi => exact .here _ _ n (List.mem_cons_of_mem _ hm) hi
  | deeper _ _ n sub _ hm hk hs => exact .deeper _ _ n sub _ (List.mem_cons_of_mem _ hm) hk hs

theorem walk_list_reachable :
    ∀ (k : Nat) (entries : List FSTree), fs_size.fs_list_size entries ≤ k →
      ∀ (relDir p : String), p ∈ walk_tree.walk_list relDir entries →
        ScanReachable relDir entries p := by
  intro k
  induction k with
  | zero =>
    intro entries hsize relDir p hp
    cases entries with
    | nil => simp at hp
    | cons e es =>
      exfalso
      have h1 : 1 ≤ fs_size e := by cases e <;> simp
      simp only [fs_list_size_cons] at hsize
      omega
  | succ k ih =>
    intro entries
    induction entries with
    | nil =>
      intro hsize relDir p hp
      simp at hp
    | cons e es ihes =>
      intro hsize relDir p hp
      simp only [walk_list_cons] at hp
      rcases List.mem_append.1 hp with hp | hp
      · cases e with
        | file n => simp at hp
        | dir n sub =>
          rw [walk_tree_dir] at hp
          by_cases hk : should_skip (rel_join relDir n)
          · rw [if_pos hk] at hp
            simp at hp
          · rw [if_neg hk] at hp
            rcases List.mem_append.1 hp with hp | hp
            · obtain ⟨m, hm, hi, rfl⟩ := (dir_files_mem _ _ _).1 hp
              exact .deeper _ _ n sub _ (List.mem_cons_self _ _)
                (Bool.not_eq_true _ ▸ eq_false_of_ne_true hk) (.here _ _ m hm hi)
            · have hsub : fs_size.fs_list_size sub ≤ k := by
                simp only [fs_list_size_cons, fs_size_dir] at hsize
                omega
              have := ih sub hsub (rel_join relDir n) p hp
              exact .deeper _ _ n sub _ (List.mem_cons_self _ _)
                (Bool.not_eq_true _ ▸ eq_false_of_ne_true hk) this
      · have hes : fs_size.fs_list_size es ≤ k + 1 := by
          have h1 : 1 ≤ fs_size e := by cases e <;> simp
          simp only [fs_list_size_cons] at hsize
          omega
        exact reachable_cons _ _ _ _ (ihes hes relDir p hp)

theorem walk_tree_subset (relDir : String) (e : FSTree) :
    ∀ (entries : List FSTree), e ∈ entries →
      ∀ p, p ∈ walk_tree relDir e → p ∈ walk_tree.walk_list relDir entries := by
  intro entries
  induction entries with
  | nil => intro he; cases he
  | cons a es ih =>
    intro he p hp
    rw [walk_list_cons]
    rcases List.mem_cons.1 he with rfl | hmem
    · exact List.mem_append.2 (Or.inl hp)
    · exact List.mem_append.2 (Or.inr (ih hmem p hp))

theorem reachable_mem_scan (relDir p : String) (entries : List FSTree)
    (h : ScanReachable relDir entries p) :
    p ∈ dir_files relDir entries ++ walk_tree.walk_list relDir entries := by
  induction h with
  | here relDir entries n hm hi =>
    exact List.mem_append.2 (Or.inl ((dir_files_mem _ _ _).2 ⟨n, hm, hi, rfl⟩))
  | deeper relDir entries n sub q hm hk hsub ih =>
    refine List.mem_append.2 (Or.inr ?_)
    refine walk_tree_subset relDir (FSTree.dir n sub) entries hm q ?_
    rw [walk_tree_dir, if_neg (by simp [hk])]
    exact ih

theorem starts_with_subset :
    ∀ (needle haystack : List Char), starts_with needle haystack = true →
      ∀ c ∈ needle, c ∈ haystack := by
  intro needle
  induction needle with
  | nil => intro haystack h c hc; cases hc
  | cons a nd ih =>
    intro haystack h c hc
    cases haystack with
    | nil => simp [starts_with] at h
    | cons b hs =>
      simp only [starts_with, Bool.and_eq_true, decide_eq_true_eq] at h
      rcases List.mem_cons.1 hc with rfl | hc'
      · exact List.mem_cons.2 (Or.inl h.1)
      · exact List.mem_cons_of_mem _ (ih hs h.2 c hc')

theorem contains_sub_subset :
    ∀ (needle haystack : List Char), contains_sub needle haystack = true →
      ∀ c ∈ needle, c ∈ haystack := by
  intro needle haystack
  induction haystack with
  | nil => intro h c hc; exact starts_with_subset needle [] h c hc
  | cons b hs ih =>
    intro h c hc
    simp only [contains_sub, Bool.or_eq_true] at h
    rcases h with h | h
    · exact starts_with_subset needle (b :: hs) h c hc
    · exact List.mem_cons_of_mem _ (ih h c hc)

/-- C10: the scanner consults the skip patterns only when pruning
directories and admits files purely by their extension: a path is returned
by `collect_files` exactly when it names an allow-listed file reachable
through un-pruned directories (the file rule of `ScanReachable` contains no
`should_skip` test); the cleaned file-level patterns `*.min.js` and
`*.lock` keep their `*`, so they can never match a real path (one without a
literal `*`); consequently `x.min.js` has an allow-listed extension, is not
matched by any skip pattern, and is collected. -/
theorem claim_C10 :
    (∀ (root : List FSTree) (p : String),
      p ∈ collect_files root ↔ ScanReachable "" root p) ∧
    (∀ (relDir n : String) (entries : List FSTree), FSTree.file n ∈ entries →
      should_index (rel_join relDir n) = true →
      rel_join relDir n ∈ dir_files relDir entries) ∧
    (∀ rel : String, ('*' ∉ rel.data) →
      substring_in (pattern_clean "**/*.min.js") rel = false ∧
      substring_in (pattern_clean "**/*.lock") rel = false) ∧
    should_index "x.min.js" = true ∧
    should_skip "x.min.js" = false ∧
    collect_files [FSTree.file "x.min.js"] = ["x.min.js"] := by
  refine ⟨?_, ?_, ?_, by decide, by decide, by decide⟩
  · intro root p
    unfold collect_files
    constructor
    · intro hp
      rcases List.mem_append.1 hp with hp | hp
      · obtain ⟨m, hm, hi, hpeq⟩ := (dir_files_mem "" p root).1 hp
        rw [hpeq]
        exact ScanReachable.here "" root m hm hi
      · exact walk_list_reachable (fs_size.fs_list_size root) root (Nat.le_refl _) "" p hp
    · exact reachable_mem_scan "" p root
  · intro relDir n entries hm hi
    exact (dir_files_mem _ _ _).2 ⟨n, hm, hi, rfl⟩
  · intro rel hstar
    constructor
    · have hclean : pattern_clean "**/*.min.js" = "*.min.js" := by decide
      rw [hclean]
      by_contra hq
      have htrue : substring_in "*.min.js" rel = true := by
        cases hb : substring_in "*.min.js" rel with
        | false => exact absurd hb hq
        | true => rfl
      have := contains_sub_subset _ _ htrue '*' (by decide)
      exact hstar this
    · have hclean : pattern_clean "**/*.lock" = "*.lock" := by decide
      rw [hclean]
      by_contra hq
      have htrue : substring_in "*.lock" rel = true := by
        cases hb : substring_in "*.lock" rel with
        | false => exact absurd hb hq
        | true => rfl
      have := contains_sub_subset _ _ htrue '*' (by decide)
      exact hstar this

/-- Witness for C10: the allow-listed `x.min.js` is collected from a
repository root although `**/*.min.js` is a configured skip pattern, and
the cleaned pattern matches no star-free path. -/
theorem claim_C10_witness :
    "x.min.js" ∈ collect_files [FSTree.file "x.min.js"] ∧
    substring_in (pattern_clean "**/*.min.js") "src/app.js" = false := by
  obtain ⟨h1, -, h3, -⟩ := claim_C10
  constructor
  · exact (h1 [FSTree.file "x.min.js"] "x.min.js").2
      (ScanReachable.here "" [FSTree.file "x.min.js"] "x.min.js"
        (List.mem_singleton.2 rfl) (by decide))
  · exact (h3 "src/app.js" (by decide)).1
